import Mathlib

/-!
Shallow embedding of the pregex probabilistic regular-expression engine.

Probabilities (Rust `f64`) are modelled as exact rationals; machine
integers (`u64`, `usize`) as `Nat`.  Calls into the external `statrs`
PMF library and the floating-point `powf`/`exp`/`ln` primitives are kept
abstract behind a `PmfLib` parameter, since the repository treats them
as a library of PMF functions.  Fallible paths (Rust `panic` / `unwrap`)
are modelled with `Option`.
-/

set_option maxRecDepth 4000

namespace Pregex

/-- Distribution variants of `src/distribution.rs` (`enum Dist`). -/
inductive Dist where
  | Categorical : List ℚ → Dist
  | Constant : Nat → Nat → ℚ → Dist
  | ExactlyTimes : Nat → Dist
  | PGeometric : Nat → Nat → ℚ → Dist
  | PBinomial : Nat → Nat → ℚ → Dist
  | PBernoulli : Nat → Nat → ℚ → Dist
  | PZipf : Nat → Nat → ℚ → Dist
  deriving DecidableEq, Repr

/-- `enum DistLink`: whether a distribution is evaluated against the
visit count of its host state or the token position within a class. -/
inductive DistLink where
  | Counted : Dist → DistLink
  | Indexed : Dist → DistLink
  deriving DecidableEq, Repr

mutual

/-- Abstract syntax tree node of `src/ast.rs`: a precomputed `length`
(the number of NFA slots the node compiles to) together with a `kind`. -/
inductive AstNode where
  | mk : Nat → Kind → AstNode

/-- AST node kinds of `src/ast.rs` (`enum Kind`). -/
inductive Kind where
  | AnchorEnd : Kind
  | AnchorStart : Kind
  | Alternation : AstNode → AstNode → Kind
  | Concatenation : AstNode → AstNode → Kind
  | ExactQuantifier : Nat → Kind
  | Literal : Char → Kind
  | Dot : Kind
  | Split : Kind
  | Start : Kind
  | Terminal : Kind
  | Classified : AstNode → Option DistLink → Kind
  | Class : Bool → List Char → Kind
  | Quantified : AstNode → AstNode → Option DistLink → Kind
  | Quantifier : Char → Kind

end

def AstNode.length : AstNode → Nat
  | .mk l _ => l

def AstNode.kind : AstNode → Kind
  | .mk _ k => k

/-- Tokens fed to the simulator are AST kinds (`type Token = Kind`). -/
abbrev Token := Kind

/-- Abstract interface for the numeric PMF library (`statrs`) and the
floating-point primitives (`powf`, `exp`, `ln`) used by
`src/distribution.rs`.  The repository treats these as an external
library, so the embedding is parameterised over them. -/
structure PmfLib where
  geometric : ℚ → Nat → Bool → ℚ
  binomial : ℚ → Nat → Nat → Bool → ℚ
  bernoulli : ℚ → Nat → Bool → ℚ
  categorical : List ℚ → Nat → Bool → ℚ
  powf : ℚ → ℚ → ℚ
  fexp : ℚ → ℚ
  fln : ℚ → ℚ

/-- A trivial instantiation of the PMF library, used to instantiate
universally quantified statements at concrete inputs. -/
def trivialLib : PmfLib :=
  ⟨fun _ _ _ => 0, fun _ _ _ _ => 0, fun _ _ _ => 0, fun _ _ _ => 0,
   fun _ _ => 0, fun _ => 0, fun _ => 0⟩

/-- `generalized_harmonic_number` of `src/distribution.rs`:
sum of `1 / i^m` for `i = 1..n`. -/
def generalized_harmonic_number (lib : PmfLib) (n : Nat) (m : ℚ) : ℚ :=
  ((List.range n).map (fun i => 1 / lib.powf ((i : ℚ) + 1) m)).sum

/-- `zipf` of `src/distribution.rs`: PMF of the Zipf distribution at `x`
(zero at `x = 0`). -/
def zipf (lib : PmfLib) (x : Nat) (a : ℚ) (n : Nat) : ℚ :=
  if x = 0 then 0
  else (1 / lib.powf (x : ℚ) a) / generalized_harmonic_number lib n a

/-- `Dist::evaluate` of `src/distribution.rs`: evaluate `(p0, p1)` for a
state's two out arrows given the count/position `x`. -/
def Dist.evaluate (lib : PmfLib) : Dist → Nat → Bool → ℚ × ℚ
  | .Constant n_min n_max p, x, log =>
      if n_min ≤ x ∧ x ≤ n_max then
        if log then (lib.fln p, lib.fln p) else (p, p)
      else (0, 0)
  | .ExactlyTimes n_match, x, _ =>
      if x = n_match then (0, 1)
      else if x < n_match then (1, 0)
      else (0, 0)
  | .PGeometric n_min _ c, x, log =>
      if x < n_min then (1, 0)
      else
        let p := lib.geometric c (x - n_min + 1) log
        if log then (lib.fln (1 - lib.fexp p), p) else (1 - p, p)
  | .PBinomial _ n_max p, x, log =>
      if n_max < x then (0, 0)
      else
        let q := lib.binomial p n_max x log
        if log then (lib.fln (1 - lib.fexp q), q) else (1 - q, q)
  | .PBernoulli _ n_max p, x, log =>
      if n_max < x then (1, 0)
      else
        let q := lib.bernoulli p x log
        if log then (lib.fln (1 - lib.fexp q), q) else (1 - q, q)
  | .PZipf _ n_max s, x, _ =>
      let p := zipf lib x s n_max
      (1 - p, p)
  | .Categorical prob_mass, x, log =>
      let p := lib.categorical prob_mass x log
      (1 - p, p)

/-- `DistLink::pmf_link` of `src/distribution.rs`: map state parameters
(visit count for `Counted`, in-class position for `Indexed`) to the
distribution's argument and evaluate it. -/
def DistLink.pmf_link (lib : PmfLib) : DistLink → Token → Option Nat → Kind → Bool → Bool → ℚ × ℚ
  | .Counted d, _, x, _, _, log => d.evaluate lib (x.getD 0) log
  | .Indexed d, token, x, _, is_inverse, log =>
      match token with
      | Kind.Literal _ =>
          match x with
          | some x' =>
              match d with
              | .PZipf _ _ _ => d.evaluate lib (x' + 1) log
              | .Categorical _ => d.evaluate lib (x' + 1) log
              | .Constant _ _ _ => d.evaluate lib 0 log
              | _ => d.evaluate lib x' log
          | none =>
              match d with
              | .Categorical prob_mass =>
                  -- `prob_mass.get(0).unwrap()`: the vector is never empty
                  -- for distributions built by `complete_from`.
                  let p := prob_mass.getD 0 0
                  (1 - p, p)
              | .Constant _ _ p =>
                  if is_inverse then (p, 1) else (p, 1 - p)
              | _ => (0, 0)
      | _ => (0, 0)

/-- The `"cat"` branch of `Dist::complete_from`
(`src/distribution.rs` lines 107-174): build the Categorical probability
vector for a class from the named parameters.  The parameter `named`
models the `params_named` hash map as an association list with distinct
keys (each key occurs at most once in a parsed argument list). -/
def cat_prob_mass (is_negate : Bool) (chars : List Char) (named : List (Char × ℚ)) : List ℚ :=
  let n_explicit := (named.filter (fun kv => kv.1 != '.')).length
  -- `usize::max(1, chars.len() - n_explicit)`; Nat subtraction truncates
  -- where the Rust debug build would abort on underflow.
  let n_implicit := Nat.max 1 (chars.length - n_explicit)
  match is_negate with
  | true =>
      let explicit_mass := ((named.filter (fun kv => kv.1 != '.')).map (fun kv => kv.2)).sum
      let remainder_mass :=
        match List.lookup '.' named with
        | some v => v
        | none => max 0 (1 - explicit_mass)
      let implicit_mass := max 0 (1 - explicit_mass - remainder_mass)
      let p_implicit := max 0 implicit_mass / (n_implicit : ℚ)
      let prob_mass := chars.map (fun c => (List.lookup c named).getD p_implicit)
      remainder_mass :: prob_mass
  | false =>
      let explicit_mass := (named.map (fun kv => kv.2)).sum
      let implicit_mass := max 0 (1 - explicit_mass)
      let p_implicit := max 0 implicit_mass / (n_implicit : ℚ)
      let prob_mass := chars.map (fun c => (List.lookup c named).getD p_implicit)
      let p_remainder :=
        match List.lookup '.' named with
        | some v => v
        | none => max 0 (1 - prob_mass.sum)
      p_remainder :: prob_mass

/-- `Dist::default_from` of `src/distribution.rs`. -/
def Dist.default_from : Kind → Option Dist
  | Kind.ExactQuantifier n => some (Dist.ExactlyTimes n)
  | _ => none

/-- Distribution parameters inside `Name(...)`: positional
(`Rule::IndexParam`) or named (`Rule::NamedParam`).  Lexical parsing of
the float value is done by the pest/std library, so the embedding
carries the parsed rational directly. -/
inductive Param where
  | IndexParam : ℚ → Param
  | NamedParam : Char → ℚ → Param
  deriving DecidableEq, Repr

/-- An item inside a bracketed character class: raw characters, or an
embedded short/POSIX class. -/
inductive ClassItem where
  | chars : List Char → ClassItem
  | shortClass : String → ClassItem
  | posixClass : String → ClassItem
  deriving DecidableEq, Repr

/-- The pest pair tree consumed by `build_ast_from_expr`
(`src/ast.rs`), restricted to the rules the builder matches on.  The
1-or-2 child shapes of `Alternation`, and the optional distribution
suffix of `Quantified`/`LongClass`, are split into separate
constructors mirroring the builder's `pair.next()` probing. -/
inductive PairTree where
  | Alternation1 : PairTree → PairTree
  | Alternation2 : PairTree → PairTree → PairTree
  | AnchorEnd : PairTree
  | AnchorStart : PairTree
  | Concat : PairTree → PairTree → PairTree
  | Quantified0 : PairTree → PairTree → PairTree
  | QuantifiedD : PairTree → PairTree → String → List Param → PairTree
  | Literal : Char → PairTree
  | EscapedLiteral : Char → PairTree
  | Dot : PairTree
  | LongClass0 : PairTree → PairTree
  | LongClassD : PairTree → String → List Param → PairTree
  | CharacterClass : List ClassItem → PairTree
  | ShortClass : String → PairTree
  | PosixClass : String → PairTree
  | EOI : PairTree
  | ShortQuantifier : Char → PairTree
  | ExactQuantifier : Nat → PairTree
  deriving DecidableEq, Repr

/-- `str::to_lowercase` on ASCII distribution names (defined on the
character data so that it evaluates inside the kernel). -/
def to_lowercase (s : String) : String := String.mk (s.data.map Char.toLower)

/-- `Dist::complete_from` of `src/distribution.rs`: instantiate a
distribution from the host kind and a `~Name(params)` clause.  `none`
models the panics (unknown distribution name, missing class chars). -/
def Dist.complete_from (kind : Kind) (name : String) (args : List Param) : Option Dist :=
  let n : Nat :=
    match kind with
    | Kind.ExactQuantifier n => n
    | _ => 0
  let neg_c : Bool × Option (List Char) :=
    match kind with
    | Kind.Class neg c => (neg, some c)
    | _ => (false, none)
  let is_negate := neg_c.1
  let c := neg_c.2
  let params : List ℚ := args.filterMap (fun p =>
    match p with
    | Param.IndexParam v => some v
    | _ => none)
  let params_named : List (Char × ℚ) := args.filterMap (fun p =>
    match p with
    | Param.NamedParam k v => some (k, v)
    | _ => none)
  match to_lowercase name with
  | "const" => some (Dist.Constant n n (params.headD 1))
  | "geo" => some (Dist.PGeometric n 18446744073709551615 (params.headD (1/2)))
  | "ber" => some (Dist.PBernoulli 0 2 (params.headD 1))
  | "bin" =>
      let n' : Nat :=
        match c with
        | some cs =>
            match cs.length with
            | 0 => 0
            | m => m - 1
        | none => n
      some (Dist.PBinomial 0 n' (params.headD 1))
  | "cat" =>
      match c with
      | some cs => some (Dist.Categorical (cat_prob_mass is_negate cs params_named))
      | none => none
  | "zipf" =>
      let n' : Nat :=
        match c with
        | some cs => cs.length
        | none => n
      some (Dist.PZipf 0 n' (params.headD 1))
  | _ => none

/-- The short/POSIX class table of `build_chars` (`src/charclass.rs`);
`none` models the panic on an unknown class name. -/
def short_chars (name : String) : Option (List Char) :=
  if name = "[:digit:]" ∨ name = "\\d" then
    some ['0', '1', '2', '3', '4', '5', '6', '7', '8', '9']
  else if name = "[:space:]" ∨ name = "\\s" then
    some [' ', '\t', '\n', '\r', Char.ofNat 0x0c, Char.ofNat 0x0b]
  else none

/-- `build_chars` of `src/charclass.rs` on the items of a bracketed
class: flat-map raw characters and embedded short/POSIX classes. -/
def build_chars : List ClassItem → Option (List Char)
  | [] => some []
  | item :: rest => do
      let head ←
        match item with
        | ClassItem.chars s => some s
        | ClassItem.shortClass n => short_chars n
        | ClassItem.posixClass n => short_chars n
      let tail ← build_chars rest
      some (head ++ tail)

/-- `build_ast_from_expr` of `src/ast.rs`: fold the pair tree into a
typed AST, computing each node's `length` and attaching distributions.
`none` models the panics inside `complete_from`/`build_chars`. -/
def build_ast_from_expr : PairTree → Option AstNode
  | PairTree.Alternation1 l => build_ast_from_expr l
  | PairTree.Alternation2 l r => do
      let left_ast ← build_ast_from_expr l
      let right_ast ← build_ast_from_expr r
      some (AstNode.mk (left_ast.length + right_ast.length + 1)
        (Kind.Alternation left_ast right_ast))
  | PairTree.AnchorEnd => some (AstNode.mk 1 Kind.AnchorEnd)
  | PairTree.AnchorStart => some (AstNode.mk 0 Kind.AnchorStart)
  | PairTree.Concat l r => do
      let left_ast ← build_ast_from_expr l
      let right_ast ← build_ast_from_expr r
      some (AstNode.mk (left_ast.length + right_ast.length)
        (Kind.Concatenation left_ast right_ast))
  | PairTree.Quantified0 atom q => do
      let left_ast ← build_ast_from_expr atom
      let quantifier_ast ← build_ast_from_expr q
      let quantifier_dist := Dist.default_from quantifier_ast.kind
      some (AstNode.mk (left_ast.length + quantifier_ast.length)
        (Kind.Quantified quantifier_ast left_ast (quantifier_dist.map DistLink.Counted)))
  | PairTree.QuantifiedD atom q dname dargs => do
      let left_ast ← build_ast_from_expr atom
      let quantifier_ast ← build_ast_from_expr q
      let d ← Dist.complete_from quantifier_ast.kind dname dargs
      some (AstNode.mk (left_ast.length + quantifier_ast.length)
        (Kind.Quantified quantifier_ast left_ast (some (DistLink.Counted d))))
  | PairTree.Literal ch => some (AstNode.mk 1 (Kind.Literal ch))
  | PairTree.EscapedLiteral ch => some (AstNode.mk 1 (Kind.Literal ch))
  | PairTree.Dot => some (AstNode.mk 1 Kind.Dot)
  | PairTree.LongClass0 cls => build_ast_from_expr cls
  | PairTree.LongClassD cls dname dargs => do
      let left_ast ← build_ast_from_expr cls
      -- the `Some(Dist::Categorical(..))` and `Some(dist)` arms of the
      -- source produce the same node.
      let d ← Dist.complete_from left_ast.kind dname dargs
      some (AstNode.mk 1 (Kind.Classified left_ast (some (DistLink.Indexed d))))
  | PairTree.CharacterClass items => do
      let cs ← build_chars items
      some (AstNode.mk 1 (Kind.Class true cs))
  | PairTree.ShortClass nm => do
      let cs ← short_chars nm
      some (AstNode.mk 1 (Kind.Class true cs))
  | PairTree.PosixClass nm => do
      let cs ← short_chars nm
      some (AstNode.mk 1 (Kind.Class true cs))
  | PairTree.EOI => some (AstNode.mk 0 Kind.Terminal)
  | PairTree.ShortQuantifier c => some (AstNode.mk 1 (Kind.Quantifier c))
  | PairTree.ExactQuantifier n => some (AstNode.mk 1 (Kind.ExactQuantifier n))

/-- The two optional forward edges of an NFA state (`type Outs`). -/
abbrev Outs := Option Nat × Option Nat

/-- An NFA state of `src/nfa.rs` (`struct State`).  In the snapshot
`nfa.rs` declares `dist: Option<Dist>` while the AST and the simulator
(`regex_state.rs`) carry `Option<DistLink>`; the embedding uses the
`DistLink` type, which is what the AST supplies and the simulator
consumes. -/
structure State where
  kind : Kind
  outs : Outs
  dist : Option DistLink

/-- `State::start`. -/
def State.start (s : Option Nat) : State := ⟨Kind.Start, (s, none), none⟩

/-- `State::anchor_start`. -/
def State.anchor_start (s : Option Nat) : State := ⟨Kind.AnchorStart, (s, none), none⟩

/-- `State::anchor_end`. -/
def State.anchor_end (e : Option Nat) : State := ⟨Kind.AnchorEnd, (e, none), none⟩

/-- `State::terminal`. -/
def State.terminal : State := ⟨Kind.Terminal, (none, none), none⟩

/-- `State::from(node, outs)`. -/
def State.fromAst (node : AstNode) (outs : Outs) : State := ⟨node.kind, outs, none⟩

/-- An NFA fragment of `src/nfa.rs` (`struct Frag`): a list of states, a
start index and the dangling exits. -/
structure Frag where
  states : List State
  start : Nat
  outs : Outs

mutual

/-- `ast_to_frag` of `src/nfa.rs`: Thompson construction of one AST node
into a fragment at base `index` with dangling exits `outs`.  `none`
models the panic on kinds the compiler cannot handle (only reachable
through `quantifier_to_frag` on a malformed `Quantified`).  The `Split`
state of the alternation branch is built by the source through a
recursive `ast_to_frag` call on a synthesised `Split` node; that leaf
branch is inlined here. -/
def ast_to_frag : AstNode → Nat → Outs → Option DistLink → Option Frag
  | AstNode.mk _ kind, index, outs, distribution =>
    match kind with
    | Kind.Alternation left right => do
        let rightf ← ast_to_frag right (index + left.length + 1) outs none
        let leftf ← ast_to_frag left (index + 1) outs none
        let split : Frag :=
          ⟨[State.mk Kind.Split (some leftf.start, some rightf.start) none],
            index, (some leftf.start, some rightf.start)⟩
        some ⟨split.states ++ leftf.states ++ rightf.states, split.start, outs⟩
    | Kind.AnchorEnd => some ⟨[State.mk Kind.AnchorEnd outs none], index, outs⟩
    | Kind.AnchorStart => some ⟨[State.mk Kind.AnchorStart outs none], index, outs⟩
    | Kind.Concatenation left right => do
        let rightf ← ast_to_frag right (index + left.length) outs none
        let leftf ← ast_to_frag left index (some rightf.start, none) none
        some ⟨leftf.states ++ rightf.states, leftf.start, rightf.outs⟩
    | Kind.Literal c => some ⟨[State.mk (Kind.Literal c) outs none], index, outs⟩
    | Kind.Dot => some ⟨[State.mk Kind.Dot outs none], index, outs⟩
    | Kind.Classified cls cls_distribution =>
        some ⟨[State.mk cls.kind outs cls_distribution], index, outs⟩
    | Kind.Class neg cs =>
        some ⟨[State.mk (Kind.Class neg cs) outs distribution], index, outs⟩
    | Kind.Quantified quantifier quantified q_distribution =>
        quantifier_to_frag quantifier quantified index outs q_distribution
    | Kind.Quantifier c =>
        some ⟨[State.mk (Kind.Quantifier c) outs distribution], index, outs⟩
    | Kind.ExactQuantifier n =>
        some ⟨[State.mk (Kind.ExactQuantifier n) outs distribution], index, outs⟩
    | Kind.Start => some ⟨[State.mk Kind.Start outs none], index, outs⟩
    | Kind.Terminal => some ⟨[State.terminal], index, (none, none)⟩
    | Kind.Split => some ⟨[State.mk Kind.Split outs none], index, outs⟩
  termination_by ast _ _ _ => sizeOf ast
  decreasing_by all_goals (simp_wf; omega)

/-- `quantifier_to_frag` of `src/nfa.rs`: compile `Quantified` nodes.
`none` models the panic on a non-quantifier first child. -/
def quantifier_to_frag : AstNode → AstNode → Nat → Outs → Option DistLink → Option Frag
  | quantifier, quantified, index, outs, distribution =>
    match quantifier.kind with
    | Kind.Quantifier c =>
        if c = '?' then do
          let quantifier_start := index + quantified.length
          let left ← ast_to_frag quantified index outs none
          let qf ← ast_to_frag quantifier quantifier_start (some left.start, outs.1) distribution
          some ⟨left.states ++ qf.states, qf.start, outs⟩
        else do
          let quantifier_start := index + quantified.length
          let left ← ast_to_frag quantified index (some quantifier_start, none) none
          let qf ← ast_to_frag quantifier quantifier_start (some index, outs.1) distribution
          let start := if c = '+' then left.start else qf.start
          some ⟨left.states ++ qf.states, start, outs⟩
    | Kind.ExactQuantifier _ => do
        let quantifier_start := index + quantified.length
        let left ← ast_to_frag quantified index (some quantifier_start, none) none
        let qf ← ast_to_frag quantifier quantifier_start (some index, outs.1) distribution
        some ⟨left.states ++ qf.states, left.start, outs⟩
    | _ => none
  termination_by quantifier quantified _ _ _ => sizeOf quantifier + sizeOf quantified + 1
  decreasing_by all_goals (simp_wf; omega)

end

/-- The accumulation loop of `asts_to_nfa` (`src/nfa.rs`): compile each
top-level AST at the running offset (starting at 1, reserving the slot
for a synthesised `Start`), remembering the first fragment's start. -/
def asts_to_nfa_core : List AstNode → Nat → Option Nat → Option (List State × Option Nat)
  | [], _, start => some ([], start)
  | ast :: rest, index, start => do
      let e := index + ast.length
      let frag ← ast_to_frag ast index (some e, none) none
      let start' :=
        match start with
        | none => some frag.start
        | some s => some s
      let (sts, st) ← asts_to_nfa_core rest e start'
      some (frag.states ++ sts, st)

/-- `asts_to_nfa` of `src/nfa.rs`: compile a list of top-level ASTs to
the flat state list, prepending a `Start` state unless the NFA already
begins with `Start` or `AnchorStart`. -/
def asts_to_nfa (asts : List AstNode) : Option (List State) := do
  let (states, start) ← asts_to_nfa_core asts 1 none
  let start_state : List State :=
    match states.head? with
    | some s =>
        match s.kind with
        | Kind.Start => []
        | Kind.AnchorStart => []
        | _ => [State.start start]
    | none => [State.start start]
  some (start_state ++ states)

/-- The active set of the simulator: state index to weight.  The
`HashMap<usize, f64>` is modelled as an association list (the simulator
only builds maps with distinct keys reachable from the claims). -/
abbrev States := List (Nat × ℚ)

/-- The visit counts of the simulator: state index to `u64` count. -/
abbrev Counts := List (Nat × Nat)

/-- `struct Transition(Option<usize>, f64)`. -/
structure Transition where
  target : Option Nat
  p : ℚ
  deriving DecidableEq, Repr

namespace RegexState

mutual

/-- `evaluate_state` of `src/regex_state.rs`: evaluate the state `idx`
against a token, returning the transitions to next states.  Recursion
through out edges is bounded by an explicit `fuel` (the Rust recursion
has no such bound). -/
def evaluate_state (lib : PmfLib) : Nat → Option Nat → Token → ℚ → List State → Counts → States → Bool → List Transition
  | 0, _, _, _, _, _, _, _ => []
  | fuel + 1, idxOpt, token, p, nfa, counts, states, is_epsilon =>
    match idxOpt with
    | none => []
    | some idx =>
      match nfa.get? idx with
      | none => []
      | some state =>
        match state.kind with
        | Kind.Terminal => [⟨some idx, p⟩]
        | Kind.Start =>
            if is_epsilon then [⟨some idx, 1⟩]
            else ⟨some idx, 1⟩ :: evaluate_state_outs lib fuel state.outs token p nfa counts states true
        | Kind.AnchorStart =>
            if is_epsilon then [⟨some idx, 1⟩]
            else
              match token with
              | Kind.Start => evaluate_state lib fuel state.outs.1 token p nfa counts states true
              | _ => []
        | Kind.AnchorEnd =>
            if is_epsilon then [⟨some idx, p⟩]
            else
              match token with
              | Kind.Terminal => [⟨state.outs.1, p⟩]
              | _ => []
        | Kind.Split => evaluate_state_outs lib fuel state.outs token p nfa counts states true
        | Kind.Quantifier _ | Kind.ExactQuantifier _ =>
            if !is_epsilon then []
            else
              let n := (List.lookup idx counts).getD 0
              let pb := (List.lookup idx states).getD p
              let pr :=
                match state.dist with
                | some dist => dist.pmf_link lib token (some n) state.kind false false
                | none => ((1 : ℚ), (1 : ℚ))
              ⟨some idx, pb⟩ ::
                (evaluate_state lib fuel state.outs.1 token p nfa counts states true ++
                 evaluate_state lib fuel state.outs.2 token (p * pr.2) nfa counts states true)
        | Kind.Dot =>
            if is_epsilon then [⟨some idx, p⟩]
            else evaluate_state_outs lib fuel state.outs token p nfa counts states true
        | Kind.Literal match_c =>
            if is_epsilon then [⟨some idx, p⟩]
            else
              match token with
              | Kind.Literal c =>
                  if c = match_c then
                    evaluate_state lib fuel state.outs.1 token p nfa counts states true
                  else []
              | _ => []
        | Kind.Class is_negate match_c =>
            if is_epsilon then [⟨some idx, p⟩]
            else
              match token with
              | Kind.Literal c =>
                  let pos := match_c.findIdx? (fun r => r = c)
                  let pr :=
                    match state.dist with
                    | some dist => dist.pmf_link lib token pos state.kind is_negate false
                    | none =>
                        match pos, is_negate with
                        | none, false => ((1 : ℚ), (0 : ℚ))
                        | none, true => (1, 1)
                        | some _, false => (1, 1)
                        | some _, true => (1, 0)
                  evaluate_state lib fuel state.outs.1 token (p * pr.2) nfa counts states true
              | _ => []
        | _ => []
  termination_by fuel _ _ _ _ _ _ _ => (fuel, 0)

/-- `evaluate_state_outs` of `src/regex_state.rs`: evaluate both out
edges at once. -/
def evaluate_state_outs (lib : PmfLib) : Nat → Outs → Token → ℚ → List State → Counts → States → Bool → List Transition
  | fuel, outs, token, p, nfa, counts, states, is_epsilon =>
      evaluate_state lib fuel outs.1 token p nfa counts states is_epsilon ++
      evaluate_state lib fuel outs.2 token p nfa counts states is_epsilon
  termination_by fuel _ _ _ _ _ _ _ => (fuel, 1)

end

/-- `initial_state` of `src/regex_state.rs`. -/
def initial_state (lib : PmfLib) (fuel : Nat) (nfa : List State) (skip_start : Bool) : States :=
  (evaluate_state lib fuel (some 0) Kind.Start 1 nfa [] [] (!skip_start)).filterMap
    (fun t => t.target.map (fun i => (i, t.p)))

/-- `terminal_state_p` of `src/regex_state.rs`: the weight recorded for
the last state of the NFA, if any. -/
def terminal_state_p (states : States) (nfa : List State) : Option ℚ :=
  List.lookup (nfa.length - 1) states

end RegexState

namespace Regex

/-!
The stale simulator of `src/regex.rs`.  In the snapshot this module
still calls `dist.evaluate(p, n, false)` with the weight as first
argument, a signature that no longer exists in `src/distribution.rs`;
that call is therefore kept abstract as a parameter `dev`.
-/

mutual

/-- `evaluate_state` of `src/regex.rs` (the stale simulator): same shape
as the current one but with no `Dot`/`Class` branches, a `counts + 1`
quantifier count, and an abstract distribution call `dev`. -/
def evaluate_state (dev : DistLink → ℚ → Nat → Bool → ℚ × ℚ) : Nat → Option Nat → Token → ℚ → List State → Counts → Bool → List Transition
  | 0, _, _, _, _, _, _ => []
  | fuel + 1, idxOpt, token, p, nfa, counts, is_epsilon =>
    match idxOpt with
    | none => []
    | some idx =>
      match nfa.get? idx with
      | none => []
      | some state =>
        match state.kind with
        | Kind.Terminal => [⟨some idx, p⟩]
        | Kind.Start =>
            if is_epsilon then [⟨some idx, 1⟩]
            else ⟨some idx, 1⟩ :: evaluate_state_outs dev fuel state.outs token p nfa counts true
        | Kind.AnchorStart =>
            if is_epsilon then [⟨some idx, 1⟩]
            else
              match token with
              | Kind.Start => evaluate_state dev fuel state.outs.1 token p nfa counts true
              | _ => []
        | Kind.AnchorEnd =>
            if is_epsilon then [⟨some idx, 1⟩]
            else
              match token with
              | Kind.Terminal => [⟨state.outs.1, 1⟩]
              | _ => []
        | Kind.Split => evaluate_state_outs dev fuel state.outs token p nfa counts true
        | Kind.Quantifier _ | Kind.ExactQuantifier _ =>
            if !is_epsilon then []
            else
              let n := (List.lookup idx counts).getD 0 + 1
              let pr :=
                match state.dist with
                | some dist => dev dist p n false
                | none => (p, p)
              ⟨some idx, 1⟩ ::
                (evaluate_state dev fuel state.outs.1 token pr.1 nfa counts true ++
                 evaluate_state dev fuel state.outs.2 token pr.2 nfa counts true)
        | Kind.Literal match_c =>
            if is_epsilon then [⟨some idx, p⟩]
            else
              match token with
              | Kind.Literal c =>
                  if c = match_c then
                    evaluate_state_outs dev fuel state.outs token p nfa counts true
                  else []
              | _ => []
        | _ => []
  termination_by fuel _ _ _ _ _ _ => (fuel, 0)

/-- `evaluate_state_outs` of `src/regex.rs`. -/
def evaluate_state_outs (dev : DistLink → ℚ → Nat → Bool → ℚ × ℚ) : Nat → Outs → Token → ℚ → List State → Counts → Bool → List Transition
  | fuel, outs, token, p, nfa, counts, is_epsilon =>
      evaluate_state dev fuel outs.1 token p nfa counts is_epsilon ++
      evaluate_state dev fuel outs.2 token p nfa counts is_epsilon
  termination_by fuel _ _ _ _ _ _ => (fuel, 1)

end

/-- The max-merge insertion of `step_states`
(`next.entry(out).or_insert(new_p)` followed by `max`). -/
def upsert_max : States → Nat → ℚ → States
  | [], out, v => [(out, v)]
  | (k, w) :: rest, out, v =>
      if k = out then (k, max w v) :: rest else (k, w) :: upsert_max rest out v

/-- `step_states` of `src/regex.rs`: advance the whole active set by one
token, merging duplicate targets with `max`. -/
def step_states (dev : DistLink → ℚ → Nat → Bool → ℚ × ℚ) (fuel : Nat)
    (states : States) (counts : Counts) (token : Token) (nfa : List State) : States :=
  states.foldl (fun next st =>
    (evaluate_state dev fuel (some st.1) token st.2 nfa counts false).foldl
      (fun next t =>
        match t.target with
        | some out => upsert_max next out t.p
        | none => next) next) []

/-- The increment-or-insert of `add_counts`. -/
def incr_count : Counts → Nat → Counts
  | [], k => [(k, 1)]
  | (k', n) :: rest, k =>
      if k' = k then (k', n + 1) :: rest else (k', n) :: incr_count rest k

/-- `add_counts` of `src/regex.rs`: bump the visit count of every live
state with positive weight. -/
def add_counts (states : States) (counts : Counts) : Counts :=
  states.foldl (fun acc st => if 0 < st.2 then incr_count acc st.1 else acc) counts

/-- `initial_state` of `src/regex.rs`. -/
def initial_state (dev : DistLink → ℚ → Nat → Bool → ℚ × ℚ) (fuel : Nat)
    (nfa : List State) (skip_start : Bool) : States :=
  (evaluate_state dev fuel (some 0) Kind.Start 1 nfa [] (!skip_start)).filterMap
    (fun t => t.target.map (fun i => (i, t.p)))

/-- `Tokens::from` of `src/regex.rs`: lift an input string to the token
sequence `Start`, one `Literal` per character, `Terminal`. -/
def tokens_from (s : List Char) : List Token :=
  [Kind.Start] ++ s.map Kind.Literal ++ [Kind.Terminal]

/-- The token loop of `match_likelihood`: one `step_states` followed by
one `add_counts` per token, in order. -/
def match_loop (dev : DistLink → ℚ → Nat → Bool → ℚ × ℚ) (fuel : Nat) (nfa : List State) :
    List Token → States → Counts → States × Counts
  | [], states, counts => (states, counts)
  | token :: rest, states, counts =>
      let states' := step_states dev fuel states counts token nfa
      let counts' := add_counts states' counts
      match_loop dev fuel nfa rest states' counts'

/-- Instrumented version of the token loop that counts how many
`step_states` calls are performed. -/
def match_loop_steps (dev : DistLink → ℚ → Nat → Bool → ℚ × ℚ) (fuel : Nat) (nfa : List State) :
    List Token → States → Counts → Nat
  | [], _, _ => 0
  | token :: rest, states, counts =>
      let states' := step_states dev fuel states counts token nfa
      let counts' := add_counts states' counts
      match_loop_steps dev fuel nfa rest states' counts' + 1

/-- `match_likelihood` of `src/regex.rs` lines 44-58: run the token loop
and then return `Some(0.0)` unconditionally. -/
def match_likelihood (dev : DistLink → ℚ → Nat → Bool → ℚ × ℚ) (fuel : Nat)
    (nfa : List State) (input : List Char) : Option ℚ :=
  let states := initial_state dev fuel nfa false
  let counts : Counts := []
  let tokens := tokens_from input
  let _final := match_loop dev fuel nfa tokens states counts
  some 0

end Regex

/-- An AST node whose kind is a bracketed class. -/
def inner_is_class : AstNode → Bool
  | .mk _ (Kind.Class _ _) => true
  | _ => false

/-- An AST node whose kind is one of the two quantifier kinds. -/
def is_quantifier_ast : AstNode → Bool
  | .mk _ (Kind.Quantifier _) => true
  | .mk _ (Kind.ExactQuantifier _) => true
  | _ => false

mutual

/-- Well-formedness of one parser-produced content node: the builder's
length arithmetic holds and only parser-producible kinds occur. -/
def wf_content : AstNode → Bool
  | .mk len k => wf_content_kind len k

/-- Helper of `wf_content`. -/
def wf_content_kind : Nat → Kind → Bool
  | len, Kind.Literal _ => len == 1
  | len, Kind.Dot => len == 1
  | len, Kind.Class _ _ => len == 1
  | len, Kind.Classified inner _ => (len == 1) && inner_is_class inner
  | len, Kind.AnchorEnd => len == 1
  | len, Kind.Concatenation l r =>
      (len == l.length + r.length) && wf_content l && wf_content r
  | len, Kind.Alternation l r =>
      (len == l.length + r.length + 1) && wf_content l && wf_content r
  | len, Kind.Quantified q b _ =>
      is_quantifier_ast q && (len == b.length + 1) && wf_content b
  | _, _ => false

end

/-- The trailing `Terminal` node that `parse` always appends. -/
def is_terminal_ast : AstNode → Bool
  | .mk 0 Kind.Terminal => true
  | _ => false

/-- A leading `AnchorStart` node. -/
def is_anchor_start_ast : AstNode → Bool
  | .mk 0 Kind.AnchorStart => true
  | _ => false

/-- Shape of the tail of a `parse` result: content nodes followed by a
final `Terminal`. -/
def wf_body : List AstNode → Bool
  | [] => false
  | [a] => is_terminal_ast a
  | a :: rest => wf_content a && wf_body rest

/-- Shape of a full `parse` result: an optional leading `AnchorStart`,
then content nodes, then the `Terminal`. -/
def wf_parse (asts : List AstNode) : Bool :=
  match asts with
  | [] => false
  | a :: rest => if is_anchor_start_ast a then wf_body rest else wf_body asts

/-- Every `some` target of an optional edge is below the bound. -/
def opt_lt (o : Option Nat) (B : Nat) : Prop := ∀ t, o = some t → t < B

/-- Both optional edges are below the bound. -/
def outs_lt (o : Outs) (B : Nat) : Prop := opt_lt o.1 B ∧ opt_lt o.2 B

/-- Sum of the precomputed lengths of a list of ASTs. -/
def total_len (asts : List AstNode) : Nat := (asts.map AstNode.length).sum

mutual

/-- The length rules of claim C7, read off the node and checked
recursively on all children (nodes the claim is silent about —
`Quantified`, `Classified`, `Start`, `Split` — are only recursed
into). -/
def length_ok_deep : AstNode → Bool
  | .mk len k => kind_length_ok len k

/-- Helper of `length_ok_deep`: the claimed length for one kind. -/
def kind_length_ok : Nat → Kind → Bool
  | len, Kind.Literal _ => len == 1
  | len, Kind.Dot => len == 1
  | len, Kind.Class _ _ => len == 1
  | len, Kind.Quantifier _ => len == 1
  | len, Kind.ExactQuantifier _ => len == 1
  | len, Kind.Concatenation l r =>
      (len == l.length + r.length) && length_ok_deep l && length_ok_deep r
  | len, Kind.Alternation l r =>
      (len == l.length + r.length + 1) && length_ok_deep l && length_ok_deep r
  | len, Kind.AnchorStart => len == 0
  | len, Kind.AnchorEnd => len == 1
  | len, Kind.Terminal => len == 0
  | _, Kind.Quantified q b _ => length_ok_deep q && length_ok_deep b
  | _, Kind.Classified inner _ => length_ok_deep inner
  | _, Kind.Start => true
  | _, Kind.Split => true

end

/-! ## Theorems -/

/-- Claim C8: for every `n` and `x`, `Dist::ExactlyTimes(n).evaluate(x, log)`
returns `(1, 0)` when `x < n`, `(0, 1)` when `x = n`, and `(0, 0)` when
`x > n`, independently of the `log` flag (the statement is quantified
over the whole PMF library, so it cannot depend on it either). -/
theorem c8_exactly_times (lib : PmfLib) (n x : Nat) (log : Bool) :
    Dist.evaluate lib (Dist.ExactlyTimes n) x log =
      if x < n then (1, 0) else if x = n then (0, 1) else (0, 0) := by
  rcases Nat.lt_trichotomy x n with h | h | h
  · simp [Dist.evaluate, h, Nat.ne_of_lt h]
  · subst h
    simp [Dist.evaluate]
  · have h1 : ¬x = n := by omega
    have h2 : ¬x < n := by omega
    simp [Dist.evaluate, h1, h2]

/-- Claim C1 (evidence): `match_likelihood` of `src/regex.rs` runs the
token loop and then returns `Some(0.0)` unconditionally, for every NFA
and every input — so it returns `Some(0.0)` (never `None`) on
non-matching inputs, and never consults `terminal_state_p`.  This
contradicts the claimed contract (`Some(p)` with `p > 0` on a match,
`None` otherwise) and the repository's own tests in `src/main.rs`. -/
theorem c1_match_likelihood_const (dev : DistLink → ℚ → Nat → Bool → ℚ × ℚ) (fuel : Nat)
    (nfa : List State) (input : List Char) :
    Regex.match_likelihood dev fuel nfa input = some 0 := rfl

theorem match_loop_steps_eq_length (dev : DistLink → ℚ → Nat → Bool → ℚ × ℚ) (fuel : Nat)
    (nfa : List State) :
    ∀ (tokens : List Token) (states : States) (counts : Counts),
      Regex.match_loop_steps dev fuel nfa tokens states counts = tokens.length := by
  intro tokens
  induction tokens with
  | nil => intro _ _; rfl
  | cons t rest ih =>
      intro states counts
      simp [Regex.match_loop_steps, ih]

/-- Claim C9: the simulator lifts an input string of length `n` to the
token sequence `[Start, Literal(s[0]), …, Literal(s[n-1]), Terminal]` of
length `n + 2`, and the loop of `match_likelihood` performs exactly one
`step_states` call per token, hence exactly `n + 2` steps; the embedded
loop is a total function, so it terminates. -/
theorem c9_token_steps (dev : DistLink → ℚ → Nat → Bool → ℚ × ℚ) (fuel : Nat)
    (nfa : List State) (s : List Char) :
    Regex.tokens_from s = [Kind.Start] ++ s.map Kind.Literal ++ [Kind.Terminal]
    ∧ (Regex.tokens_from s).length = s.length + 2
    ∧ Regex.match_loop_steps dev fuel nfa (Regex.tokens_from s)
        (Regex.initial_state dev fuel nfa false) [] = s.length + 2 := by
  refine ⟨rfl, ?_, ?_⟩
  · simp [Regex.tokens_from]
  · rw [match_loop_steps_eq_length]
    simp [Regex.tokens_from]

/-- Claim C10: both `evaluate_state` implementations are total at the
simulation interface: a `None` index, or an index out of range of the
state list, yields the empty transition list (state lookup is by guarded
`get`), for every fuel, token, weight and auxiliary map. -/
theorem c10_guarded_lookup (lib : PmfLib) (dev : DistLink → ℚ → Nat → Bool → ℚ × ℚ)
    (fuel : Nat) (token : Token) (p : ℚ) (nfa : List State) (counts : Counts)
    (states : States) (is_epsilon : Bool) :
    (RegexState.evaluate_state lib fuel none token p nfa counts states is_epsilon = []
      ∧ ∀ idx, nfa.length ≤ idx →
          RegexState.evaluate_state lib fuel (some idx) token p nfa counts states is_epsilon = [])
    ∧ (Regex.evaluate_state dev fuel none token p nfa counts is_epsilon = []
      ∧ ∀ idx, nfa.length ≤ idx →
          Regex.evaluate_state dev fuel (some idx) token p nfa counts is_epsilon = []) := by
  cases fuel with
  | zero =>
      exact ⟨⟨by simp [RegexState.evaluate_state], fun _ _ => by simp [RegexState.evaluate_state]⟩,
        ⟨by simp [Regex.evaluate_state], fun _ _ => by simp [Regex.evaluate_state]⟩⟩
  | succ f =>
      refine ⟨⟨by simp [RegexState.evaluate_state], fun idx h => ?_⟩,
        ⟨by simp [Regex.evaluate_state], fun idx h => ?_⟩⟩
      · have hg : nfa[idx]? = none := List.getElem?_eq_none_iff.mpr h
        simp [RegexState.evaluate_state, hg]
      · have hg : nfa[idx]? = none := List.getElem?_eq_none_iff.mpr h
        simp [Regex.evaluate_state, hg]

/-- Witness for C10 at a concrete out-of-range index. -/
theorem c10_guarded_lookup_witness :
    ([] : List State).length ≤ 5
    ∧ RegexState.evaluate_state trivialLib 3 (some 5) Kind.Start 1 [] [] [] true = []
    ∧ Regex.evaluate_state (fun _ _ _ _ => (0, 0)) 3 (some 5) Kind.Start 1 [] [] true = [] :=
  ⟨by decide,
   (c10_guarded_lookup trivialLib (fun _ _ _ _ => (0, 0)) 3 Kind.Start 1 [] [] [] true).1.2
     5 (by decide),
   (c10_guarded_lookup trivialLib (fun _ _ _ _ => (0, 0)) 3 Kind.Start 1 [] [] [] true).2.2
     5 (by decide)⟩

/-- Claim C2 (evidence): `build_ast_from_expr` constructs the class node
with the negation flag hard-coded to `true` for every character class —
here evaluated at the non-negated classes `[abc]` and `\d`, where the
claim (and the repository's own parser tests) require `false`. -/
theorem c2_class_negation_eval :
    build_ast_from_expr (PairTree.CharacterClass [ClassItem.chars ['a', 'b', 'c']])
        = some (AstNode.mk 1 (Kind.Class true ['a', 'b', 'c']))
    ∧ build_ast_from_expr (PairTree.ShortClass "\\d")
        = some (AstNode.mk 1 (Kind.Class true ['0', '1', '2', '3', '4', '5', '6', '7', '8', '9'])) := by
  constructor
  · simp [build_ast_from_expr, build_chars]
  · simp [build_ast_from_expr, short_chars]

/-- Claim C4 (counterexample): for the `+` quantifier the compiled
fragment's entry point is the operand's base index (here `5`), not the
quantifier state's index (here `6`), refuting the claim that the
quantifier state is the entry point for all of `*`, `+` and `{n}`. -/
theorem c4_entry_counterexample :
    quantifier_to_frag (AstNode.mk 1 (Kind.Quantifier '+')) (AstNode.mk 1 (Kind.Literal 'a'))
        5 (some 7, none) none
      = some ⟨[State.mk (Kind.Literal 'a') (some 6, none) none,
               State.mk (Kind.Quantifier '+') (some 5, some 7) none], 5, (some 7, none)⟩
    ∧ (5 : Nat) ≠ 6 := by
  constructor
  · simp [quantifier_to_frag, ast_to_frag, AstNode.kind, AstNode.length]
  · decide

/-- Claim C4 (amended): for `*`, `+` and `{n}` the quantifier state is
appended after the operand fragment at slot `index + operand.length`,
with outs `(operand base, shared exit)`, and the operand fragment is
compiled with its exit looping back to the quantifier slot; the
fragment's entry point is the quantifier slot for `*` but the operand
fragment's start for `+` and `{n}`. -/
theorem c4_quantifier_frag_shape (ql : Nat) (body : AstNode) (index : Nat) (outs : Outs)
    (dist : Option DistLink) (n : Nat) :
    (quantifier_to_frag (AstNode.mk ql (Kind.Quantifier '*')) body index outs dist
       = (ast_to_frag body index (some (index + body.length), none) none).map
           (fun left =>
             ⟨left.states ++ [State.mk (Kind.Quantifier '*') (some index, outs.1) dist],
               index + body.length, outs⟩))
    ∧ (quantifier_to_frag (AstNode.mk ql (Kind.Quantifier '+')) body index outs dist
       = (ast_to_frag body index (some (index + body.length), none) none).map
           (fun left =>
             ⟨left.states ++ [State.mk (Kind.Quantifier '+') (some index, outs.1) dist],
               left.start, outs⟩))
    ∧ (quantifier_to_frag (AstNode.mk ql (Kind.ExactQuantifier n)) body index outs dist
       = (ast_to_frag body index (some (index + body.length), none) none).map
           (fun left =>
             ⟨left.states ++ [State.mk (Kind.ExactQuantifier n) (some index, outs.1) dist],
               left.start, outs⟩)) := by
  refine ⟨?_, ?_, ?_⟩ <;>
  · cases h : ast_to_frag body index (some (index + body.length), none) none with
    | none => simp [quantifier_to_frag, ast_to_frag, AstNode.kind, h]
    | some left => simp [quantifier_to_frag, ast_to_frag, AstNode.kind, h]


/-- Claim C7: every AST node built by `build_ast_from_expr` (and,
recursively, each of its children) carries the claimed precomputed
length: literal, dot and class nodes have length 1; quantifier nodes
have length 1; a concatenation's length is the sum of its children's;
an alternation's adds 1; `AnchorStart` has 0, `AnchorEnd` has 1, and
`Terminal` has 0. -/
theorem c7_length_rules : ∀ (pt : PairTree) (ast : AstNode),
    build_ast_from_expr pt = some ast → length_ok_deep ast = true := by
  intro pt
  induction pt with
  | Alternation1 l ihl => exact ihl
  | Alternation2 l r ihl ihr =>
      intro ast h
      simp only [build_ast_from_expr] at h
      obtain ⟨la, hl, h⟩ := Option.bind_eq_some.mp h
      obtain ⟨ra, hr, h⟩ := Option.bind_eq_some.mp h
      have := Option.some.inj h
      subst this
      simp [length_ok_deep, kind_length_ok, ihl la hl, ihr ra hr]
  | AnchorEnd =>
      intro ast h
      simp only [build_ast_from_expr, Option.some.injEq] at h
      subst h
      rfl
  | AnchorStart =>
      intro ast h
      simp only [build_ast_from_expr, Option.some.injEq] at h
      subst h
      rfl
  | Concat l r ihl ihr =>
      intro ast h
      simp only [build_ast_from_expr] at h
      obtain ⟨la, hl, h⟩ := Option.bind_eq_some.mp h
      obtain ⟨ra, hr, h⟩ := Option.bind_eq_some.mp h
      have := Option.some.inj h
      subst this
      simp [length_ok_deep, kind_length_ok, ihl la hl, ihr ra hr]
  | Quantified0 atom q iha ihq =>
      intro ast h
      simp only [build_ast_from_expr] at h
      obtain ⟨la, hl, h⟩ := Option.bind_eq_some.mp h
      obtain ⟨qa, hq, h⟩ := Option.bind_eq_some.mp h
      have := Option.some.inj h
      subst this
      simp [length_ok_deep, kind_length_ok, iha la hl, ihq qa hq]
  | QuantifiedD atom q dname dargs iha ihq =>
      intro ast h
      simp only [build_ast_from_expr] at h
      obtain ⟨la, hl, h⟩ := Option.bind_eq_some.mp h
      obtain ⟨qa, hq, h⟩ := Option.bind_eq_some.mp h
      obtain ⟨d, hd, h⟩ := Option.bind_eq_some.mp h
      have := Option.some.inj h
      subst this
      simp [length_ok_deep, kind_length_ok, iha la hl, ihq qa hq]
  | Literal c =>
      intro ast h
      simp only [build_ast_from_expr, Option.some.injEq] at h
      subst h
      rfl
  | EscapedLiteral c =>
      intro ast h
      simp only [build_ast_from_expr, Option.some.injEq] at h
      subst h
      rfl
  | Dot =>
      intro ast h
      simp only [build_ast_from_expr, Option.some.injEq] at h
      subst h
      rfl
  | LongClass0 cls ih => exact ih
  | LongClassD cls dname dargs ih =>
      intro ast h
      simp only [build_ast_from_expr] at h
      obtain ⟨la, hl, h⟩ := Option.bind_eq_some.mp h
      obtain ⟨d, hd, h⟩ := Option.bind_eq_some.mp h
      have := Option.some.inj h
      subst this
      simp [length_ok_deep, kind_length_ok, ih la hl]
  | CharacterClass items =>
      intro ast h
      simp only [build_ast_from_expr] at h
      obtain ⟨cs, hcs, h⟩ := Option.bind_eq_some.mp h
      have := Option.some.inj h
      subst this
      rfl
  | ShortClass nm =>
      intro ast h
      simp only [build_ast_from_expr] at h
      obtain ⟨cs, hcs, h⟩ := Option.bind_eq_some.mp h
      have := Option.some.inj h
      subst this
      rfl
  | PosixClass nm =>
      intro ast h
      simp only [build_ast_from_expr] at h
      obtain ⟨cs, hcs, h⟩ := Option.bind_eq_some.mp h
      have := Option.some.inj h
      subst this
      rfl
  | EOI =>
      intro ast h
      simp only [build_ast_from_expr, Option.some.injEq] at h
      subst h
      rfl
  | ShortQuantifier c =>
      intro ast h
      simp only [build_ast_from_expr, Option.some.injEq] at h
      subst h
      rfl
  | ExactQuantifier n =>
      intro ast h
      simp only [build_ast_from_expr, Option.some.injEq] at h
      subst h
      rfl

/-- Witness for C7 at the concrete source `a.`. -/
theorem c7_length_rules_witness :
    build_ast_from_expr (PairTree.Concat (PairTree.Literal 'a') PairTree.Dot)
      = some (AstNode.mk 2 (Kind.Concatenation (AstNode.mk 1 (Kind.Literal 'a'))
          (AstNode.mk 1 Kind.Dot)))
    ∧ length_ok_deep (AstNode.mk 2 (Kind.Concatenation (AstNode.mk 1 (Kind.Literal 'a'))
        (AstNode.mk 1 Kind.Dot))) = true :=
  ⟨rfl, c7_length_rules (PairTree.Concat (PairTree.Literal 'a') PairTree.Dot)
    (AstNode.mk 2 (Kind.Concatenation (AstNode.mk 1 (Kind.Literal 'a'))
      (AstNode.mk 1 Kind.Dot))) rfl⟩

theorem lookup_eq_none_of_not_mem_keys (named : List (Char × ℚ)) (c : Char)
    (h : c ∉ named.map Prod.fst) : List.lookup c named = none := by
  induction named with
  | nil => rfl
  | cons kv rest ih =>
      obtain ⟨k, v⟩ := kv
      simp only [List.map_cons, List.mem_cons, not_or] at h
      have hne : (c == k) = false := beq_eq_false_iff_ne.mpr h.1
      simp [List.lookup, hne, ih h.2]

theorem lookup_eq_some_of_mem_nodup (named : List (Char × ℚ)) (c : Char) (w : ℚ)
    (hnd : (named.map Prod.fst).Nodup) (hmem : (c, w) ∈ named) :
    List.lookup c named = some w := by
  induction named with
  | nil => cases hmem
  | cons kv rest ih =>
      obtain ⟨k, v⟩ := kv
      simp only [List.map_cons, List.nodup_cons] at hnd
      rcases List.mem_cons.mp hmem with h | h
      · have hc : c = k := congrArg Prod.fst h
        have hw : w = v := congrArg Prod.snd h
        subst hc; subst hw
        simp [List.lookup]
      · have hck : c ≠ k := by
          intro he
          exact hnd.1 (he ▸ List.mem_map.mpr ⟨(c, w), h, rfl⟩)
        have hne : (c == k) = false := beq_eq_false_iff_ne.mpr hck
        simp [List.lookup, hne, ih hnd.2 h]

theorem filter_ne_dot_eq_self (named : List (Char × ℚ))
    (hdot : '.' ∉ named.map Prod.fst) :
    (named.filter fun kv => kv.1 != '.') = named := by
  apply List.filter_eq_self.mpr
  intro kv hkv
  rw [bne_iff_ne]
  intro he
  exact hdot (List.mem_map.mpr ⟨kv, hkv, he⟩)

theorem complete_from_cat_named (neg : Bool) (chars : List Char) (named : List (Char × ℚ)) :
    Dist.complete_from (Kind.Class neg chars) "Cat"
        (named.map fun kv => Param.NamedParam kv.1 kv.2)
      = some (Dist.Categorical (cat_prob_mass neg chars named)) := by
  have hargs : (named.map fun kv => Param.NamedParam kv.1 kv.2).filterMap
      (fun p => match p with
        | Param.NamedParam k v => some (k, v)
        | _ => none) = named := by
    induction named with
    | nil => rfl
    | cons kv rest ih => simp_all
  simp only [Dist.complete_from, hargs]
  rfl

theorem max_zero_max (a : ℚ) : max 0 (max 0 a) = max 0 a := by
  rw [← max_assoc, max_self]

/-- Claim C3: a source-level class `[chars~Cat(args)]` without a leading
caret is built by the AST builder (with this code base's always-`true`
negation flag) into a `Classified` node whose `Categorical` vector has
length `|chars| + 1`; when no `.` argument is given, index 0 defaults to
`max 0 (1 - Σ named)`, each char without an explicit weight gets
`max 0 (1 - explicit_sum - w_rest) / implicit_count` at its class
position + 1, and each explicitly weighted char gets its weight. -/
theorem c3_cat_vector (chars : List Char) (named : List (Char × ℚ))
    (hnd : (named.map Prod.fst).Nodup) (hdot : '.' ∉ named.map Prod.fst) :
    build_ast_from_expr (PairTree.LongClassD (PairTree.CharacterClass [ClassItem.chars chars])
        "Cat" (named.map fun kv => Param.NamedParam kv.1 kv.2))
      = some (AstNode.mk 1 (Kind.Classified (AstNode.mk 1 (Kind.Class true chars))
          (some (DistLink.Indexed (Dist.Categorical (cat_prob_mass true chars named))))))
    ∧ (cat_prob_mass true chars named).length = chars.length + 1
    ∧ (cat_prob_mass true chars named).head? = some (max 0 (1 - (named.map fun kv => kv.2).sum))
    ∧ (∀ i c, chars.get? i = some c → c ∉ named.map Prod.fst →
        (cat_prob_mass true chars named).get? (i + 1)
          = some (max 0 (1 - (named.map fun kv => kv.2).sum
                - max 0 (1 - (named.map fun kv => kv.2).sum))
              / (Nat.max 1 (chars.length - named.length) : ℚ)))
    ∧ (∀ i c w, chars.get? i = some c → (c, w) ∈ named →
        (cat_prob_mass true chars named).get? (i + 1) = some w) := by
  have hfilter := filter_ne_dot_eq_self named hdot
  have hdotlk : List.lookup '.' named = none := lookup_eq_none_of_not_mem_keys named '.' hdot
  refine ⟨?_, ?_, ?_, ?_, ?_⟩
  · simp [build_ast_from_expr, build_chars, AstNode.kind, complete_from_cat_named]
  · simp [cat_prob_mass]
  · simp [cat_prob_mass, hfilter, hdotlk]
  · intro i c hget hcnot
    rw [List.get?_eq_getElem?] at hget
    have hlk : List.lookup c named = none := lookup_eq_none_of_not_mem_keys named c hcnot
    rw [List.get?_eq_getElem?]
    simp [cat_prob_mass, hfilter, hdotlk, List.getElem?_map, hget, hlk, max_zero_max]
  · intro i c w hget hmem
    rw [List.get?_eq_getElem?] at hget
    have hlk := lookup_eq_some_of_mem_nodup named c w hnd hmem
    rw [List.get?_eq_getElem?]
    simp [cat_prob_mass, List.getElem?_map, hget, hlk]

/-- Witness for C3 at the claim's example `[abc~Cat(a=0.7)]`, whose
vector is `[0.3, 0.7, 0.0, 0.0]`. -/
theorem c3_cat_vector_witness :
    (([('a', (7 : ℚ)/10)].map Prod.fst).Nodup ∧ '.' ∉ [('a', (7 : ℚ)/10)].map Prod.fst)
    ∧ (build_ast_from_expr (PairTree.LongClassD
          (PairTree.CharacterClass [ClassItem.chars ['a', 'b', 'c']])
          "Cat" ([('a', (7 : ℚ)/10)].map fun kv => Param.NamedParam kv.1 kv.2))
        = some (AstNode.mk 1 (Kind.Classified (AstNode.mk 1 (Kind.Class true ['a', 'b', 'c']))
            (some (DistLink.Indexed (Dist.Categorical
              (cat_prob_mass true ['a', 'b', 'c'] [('a', (7 : ℚ)/10)]))))))
      ∧ (cat_prob_mass true ['a', 'b', 'c'] [('a', (7 : ℚ)/10)]).length = ['a', 'b', 'c'].length + 1
      ∧ (cat_prob_mass true ['a', 'b', 'c'] [('a', (7 : ℚ)/10)]).head?
          = some (max 0 (1 - ([('a', (7 : ℚ)/10)].map fun kv => kv.2).sum))
      ∧ (∀ i c, ['a', 'b', 'c'].get? i = some c → c ∉ [('a', (7 : ℚ)/10)].map Prod.fst →
          (cat_prob_mass true ['a', 'b', 'c'] [('a', (7 : ℚ)/10)]).get? (i + 1)
            = some (max 0 (1 - ([('a', (7 : ℚ)/10)].map fun kv => kv.2).sum
                  - max 0 (1 - ([('a', (7 : ℚ)/10)].map fun kv => kv.2).sum))
                / (Nat.max 1 (['a', 'b', 'c'].length - [('a', (7 : ℚ)/10)].length) : ℚ)))
      ∧ (∀ i c w, ['a', 'b', 'c'].get? i = some c → (c, w) ∈ [('a', (7 : ℚ)/10)] →
          (cat_prob_mass true ['a', 'b', 'c'] [('a', (7 : ℚ)/10)]).get? (i + 1) = some w))
    ∧ cat_prob_mass true ['a', 'b', 'c'] [('a', (7 : ℚ)/10)] = [3/10, 7/10, 0, 0] :=
  ⟨⟨by decide, by decide⟩,
   c3_cat_vector ['a', 'b', 'c'] [('a', (7 : ℚ)/10)] (by decide) (by decide),
   by simp [cat_prob_mass, List.lookup]; norm_num⟩

/-- Claim C5: when a `Quantifier` or `ExactQuantifier` state is
evaluated as an epsilon move, the count passed to its attached `Counted`
distribution is exactly `counts[idx]` with default `0` — not
`counts[idx] + 1` — as exhibited by the explicit
`(List.lookup idx counts).getD 0` argument of `Dist.evaluate` below. -/
theorem c5_quantifier_count (lib : PmfLib) (fuel idx : Nat) (token : Token) (p : ℚ)
    (nfa : List State) (counts : Counts) (states : States) (st : State) (d : Dist)
    (hst : nfa.get? idx = some st)
    (hq : (∃ c, st.kind = Kind.Quantifier c) ∨ ∃ n, st.kind = Kind.ExactQuantifier n)
    (hd : st.dist = some (DistLink.Counted d)) :
    RegexState.evaluate_state lib (fuel + 1) (some idx) token p nfa counts states true =
      ⟨some idx, (List.lookup idx states).getD p⟩ ::
        (RegexState.evaluate_state lib fuel st.outs.1 token p nfa counts states true ++
         RegexState.evaluate_state lib fuel st.outs.2 token
           (p * (Dist.evaluate lib d ((List.lookup idx counts).getD 0) false).2)
           nfa counts states true) := by
  rw [List.get?_eq_getElem?] at hst
  rcases hq with ⟨c, hk⟩ | ⟨n, hk⟩ <;>
    simp [RegexState.evaluate_state, hst, hk, hd, DistLink.pmf_link]

/-- Witness for C5 at a concrete quantifier state with `ExactlyTimes`
and a recorded visit count of `2`. -/
theorem c5_quantifier_count_witness :
    ([⟨Kind.ExactQuantifier 2, (some 1, some 2), some (DistLink.Counted (Dist.ExactlyTimes 2))⟩,
      ⟨Kind.Literal 'a', (some 0, none), none⟩, State.terminal] : List State).get? 0
        = some ⟨Kind.ExactQuantifier 2, (some 1, some 2),
            some (DistLink.Counted (Dist.ExactlyTimes 2))⟩
    ∧ ((∃ c, (⟨Kind.ExactQuantifier 2, (some 1, some 2),
          some (DistLink.Counted (Dist.ExactlyTimes 2))⟩ : State).kind = Kind.Quantifier c)
        ∨ ∃ n, (⟨Kind.ExactQuantifier 2, (some 1, some 2),
          some (DistLink.Counted (Dist.ExactlyTimes 2))⟩ : State).kind = Kind.ExactQuantifier n)
    ∧ RegexState.evaluate_state trivialLib 2 (some 0) (Kind.Literal 'a') 1
        [⟨Kind.ExactQuantifier 2, (some 1, some 2), some (DistLink.Counted (Dist.ExactlyTimes 2))⟩,
         ⟨Kind.Literal 'a', (some 0, none), none⟩, State.terminal] [(0, 2)] [] true =
        ⟨some 0, (List.lookup 0 ([] : States)).getD 1⟩ ::
          (RegexState.evaluate_state trivialLib 1
              (⟨Kind.ExactQuantifier 2, (some 1, some 2),
                some (DistLink.Counted (Dist.ExactlyTimes 2))⟩ : State).outs.1
              (Kind.Literal 'a') 1
              [⟨Kind.ExactQuantifier 2, (some 1, some 2),
                some (DistLink.Counted (Dist.ExactlyTimes 2))⟩,
               ⟨Kind.Literal 'a', (some 0, none), none⟩, State.terminal] [(0, 2)] [] true ++
           RegexState.evaluate_state trivialLib 1
              (⟨Kind.ExactQuantifier 2, (some 1, some 2),
                some (DistLink.Counted (Dist.ExactlyTimes 2))⟩ : State).outs.2
              (Kind.Literal 'a')
              (1 * (Dist.evaluate trivialLib (Dist.ExactlyTimes 2)
                  ((List.lookup 0 ([(0, 2)] : Counts)).getD 0) false).2)
              [⟨Kind.ExactQuantifier 2, (some 1, some 2),
                some (DistLink.Counted (Dist.ExactlyTimes 2))⟩,
               ⟨Kind.Literal 'a', (some 0, none), none⟩, State.terminal] [(0, 2)] [] true) :=
  ⟨rfl, Or.inr ⟨2, rfl⟩,
   c5_quantifier_count trivialLib 1 0 (Kind.Literal 'a') 1 _ [(0, 2)] [] _
     (Dist.ExactlyTimes 2) rfl (Or.inr ⟨2, rfl⟩) rfl⟩

theorem opt_lt_none (B : Nat) : opt_lt none B := fun _ ht => nomatch ht

theorem opt_lt_some (v B : Nat) (h : v < B) : opt_lt (some v) B := by
  intro t ht
  obtain rfl := Option.some.inj ht
  exact h

theorem AstNode.length_mk (l : Nat) (k : Kind) : (AstNode.mk l k).length = l := rfl

theorem AstNode.kind_mk (l : Nat) (k : Kind) : (AstNode.mk l k).kind = k := rfl

theorem ast_to_frag_spec (ast : AstNode) : ∀ (index : Nat) (outs : Outs)
    (dist : Option DistLink) (B : Nat),
    wf_content ast = true → outs_lt outs B → index + ast.length ≤ B →
    ∃ f, ast_to_frag ast index outs dist = some f
      ∧ f.states.length = ast.length
      ∧ index ≤ f.start ∧ f.start < index + ast.length
      ∧ ∀ s ∈ f.states, outs_lt s.outs B
          ∧ s.kind ≠ Kind.Start ∧ s.kind ≠ Kind.AnchorStart :=
  match ast with
  | .mk len (Kind.Literal c) => by
      intro index outs dist B hwf houts hB
      have hlen : len = 1 := by
        simpa [wf_content, wf_content_kind] using hwf
      subst hlen
      refine ⟨⟨[State.mk (Kind.Literal c) outs none], index, outs⟩, by simp [ast_to_frag], rfl,
        le_refl index, by simp [AstNode.length_mk], ?_⟩
      intro s hs
      simp only [List.mem_singleton] at hs
      subst hs
      exact ⟨houts, by simp, by simp⟩
  | .mk len Kind.Dot => by
      intro index outs dist B hwf houts hB
      have hlen : len = 1 := by
        simpa [wf_content, wf_content_kind] using hwf
      subst hlen
      refine ⟨⟨[State.mk Kind.Dot outs none], index, outs⟩, by simp [ast_to_frag], rfl,
        le_refl index, by simp [AstNode.length_mk], ?_⟩
      intro s hs
      simp only [List.mem_singleton] at hs
      subst hs
      exact ⟨houts, by simp, by simp⟩
  | .mk len (Kind.Class neg cs) => by
      intro index outs dist B hwf houts hB
      have hlen : len = 1 := by
        simpa [wf_content, wf_content_kind] using hwf
      subst hlen
      refine ⟨⟨[State.mk (Kind.Class neg cs) outs dist], index, outs⟩, by simp [ast_to_frag], rfl,
        le_refl index, by simp [AstNode.length_mk], ?_⟩
      intro s hs
      simp only [List.mem_singleton] at hs
      subst hs
      exact ⟨houts, by simp, by simp⟩
  | .mk len Kind.AnchorEnd => by
      intro index outs dist B hwf houts hB
      have hlen : len = 1 := by
        simpa [wf_content, wf_content_kind] using hwf
      subst hlen
      refine ⟨⟨[State.mk Kind.AnchorEnd outs none], index, outs⟩, by simp [ast_to_frag], rfl,
        le_refl index, by simp [AstNode.length_mk], ?_⟩
      intro s hs
      simp only [List.mem_singleton] at hs
      subst hs
      exact ⟨houts, by simp, by simp⟩
  | .mk len (Kind.Classified inner d') => by
      intro index outs dist B hwf houts hB
      have h2 : len = 1 ∧ inner_is_class inner = true := by
        simpa [wf_content, wf_content_kind, Bool.and_eq_true] using hwf
      obtain ⟨hlen, hinner⟩ := h2
      subst hlen
      obtain ⟨ilen, ik⟩ := inner
      cases ik
      case Class neg cs =>
        refine ⟨⟨[State.mk (AstNode.mk ilen (Kind.Class neg cs)).kind outs d'], index, outs⟩,
          by simp [ast_to_frag], rfl, le_refl index, by simp [AstNode.length_mk], ?_⟩
        intro s hs
        simp only [List.mem_singleton] at hs
        subst hs
        exact ⟨houts, by simp [AstNode.kind_mk], by simp [AstNode.kind_mk]⟩
      all_goals exact absurd hinner (by simp [inner_is_class])
  | .mk len (Kind.Concatenation l r) => by
      intro index outs dist B hwf houts hB
      have h3 : (len = l.length + r.length ∧ wf_content l = true) ∧ wf_content r = true := by
        simpa [wf_content, wf_content_kind, Bool.and_eq_true] using hwf
      obtain ⟨⟨hlen, hwl⟩, hwr⟩ := h3
      subst hlen
      simp only [AstNode.length_mk] at hB
      obtain ⟨fr, hfr, hfrlen, hfrs1, hfrs2, hfrsts⟩ :=
        ast_to_frag_spec r (index + l.length) outs none B hwr houts (by omega)
      obtain ⟨fl, hfl, hfllen, hfls1, hfls2, hflsts⟩ :=
        ast_to_frag_spec l index (some fr.start, none) none B hwl
          ⟨opt_lt_some _ _ (by omega), opt_lt_none B⟩ (by omega)
      refine ⟨⟨fl.states ++ fr.states, fl.start, fr.outs⟩, ?_, ?_, hfls1, ?_, ?_⟩
      · simp [ast_to_frag, hfr, hfl]
      · simp [hfllen, hfrlen, AstNode.length_mk]
      · simp only [AstNode.length_mk]
        omega
      · intro s hs
        rcases List.mem_append.mp hs with h | h
        · exact hflsts s h
        · exact hfrsts s h
  | .mk len (Kind.Alternation l r) => by
      intro index outs dist B hwf houts hB
      have h3 : (len = l.length + r.length + 1 ∧ wf_content l = true) ∧ wf_content r = true := by
        simpa [wf_content, wf_content_kind, Bool.and_eq_true] using hwf
      obtain ⟨⟨hlen, hwl⟩, hwr⟩ := h3
      subst hlen
      simp only [AstNode.length_mk] at hB
      obtain ⟨fr, hfr, hfrlen, hfrs1, hfrs2, hfrsts⟩ :=
        ast_to_frag_spec r (index + l.length + 1) outs none B hwr houts (by omega)
      obtain ⟨fl, hfl, hfllen, hfls1, hfls2, hflsts⟩ :=
        ast_to_frag_spec l (index + 1) outs none B hwl houts (by omega)
      refine ⟨⟨State.mk Kind.Split (some fl.start, some fr.start) none :: (fl.states ++ fr.states),
        index, outs⟩, ?_, ?_, le_refl index, ?_, ?_⟩
      · simp [ast_to_frag, hfr, hfl]
      · simp [hfllen, hfrlen, AstNode.length_mk]
      · simp only [AstNode.length_mk]
        omega
      · intro s hs
        rcases List.mem_cons.mp hs with h | h
        · subst h
          exact ⟨⟨opt_lt_some _ _ (by omega), opt_lt_some _ _ (by omega)⟩, by simp, by simp⟩
        · rcases List.mem_append.mp h with h' | h'
          · exact hflsts s h'
          · exact hfrsts s h'
  | .mk len (Kind.Quantified q b d') => by
      intro index outs dist B hwf houts hB
      have h3 : (is_quantifier_ast q = true ∧ len = b.length + 1) ∧ wf_content b = true := by
        simpa [wf_content, wf_content_kind, Bool.and_eq_true] using hwf
      obtain ⟨⟨hq, hlen⟩, hwb⟩ := h3
      subst hlen
      simp only [AstNode.length_mk] at hB
      obtain ⟨qlen, qk⟩ := q
      cases qk
      case Quantifier c =>
        by_cases hc : c = '?'
        · subst hc
          obtain ⟨fl, hfl, hfllen, hfls1, hfls2, hflsts⟩ :=
            ast_to_frag_spec b index outs none B hwb houts (by omega)
          refine ⟨⟨fl.states ++ [State.mk (Kind.Quantifier '?') (some fl.start, outs.1) d'],
            index + b.length, outs⟩, ?_, ?_, ?_, ?_, ?_⟩
          · simp [ast_to_frag, quantifier_to_frag, AstNode.kind_mk, AstNode.length_mk, hfl]
          · simp [hfllen, AstNode.length_mk]
          · show index ≤ index + b.length
            omega
          · show index + b.length < index + (AstNode.mk (b.length + 1)
              (Kind.Quantified (AstNode.mk qlen (Kind.Quantifier '?')) b d')).length
            simp only [AstNode.length_mk]
            omega
          · intro s hs
            rcases List.mem_append.mp hs with h | h
            · exact hflsts s h
            · simp only [List.mem_singleton] at h
              subst h
              exact ⟨⟨opt_lt_some _ _ (by omega), houts.1⟩, by simp, by simp⟩
        · obtain ⟨fl, hfl, hfllen, hfls1, hfls2, hflsts⟩ :=
            ast_to_frag_spec b index (some (index + b.length), none) none B hwb
              ⟨opt_lt_some _ _ (by omega), opt_lt_none B⟩ (by omega)
          refine ⟨⟨fl.states ++ [State.mk (Kind.Quantifier c) (some index, outs.1) d'],
            (if c = '+' then fl.start else index + b.length), outs⟩, ?_, ?_, ?_, ?_, ?_⟩
          · simp [ast_to_frag, quantifier_to_frag, AstNode.kind_mk, AstNode.length_mk, hfl, hc]
          · simp [hfllen, AstNode.length_mk]
          · show index ≤ if c = '+' then fl.start else index + b.length
            split <;> omega
          · show (if c = '+' then fl.start else index + b.length) < index + (AstNode.mk (b.length + 1)
              (Kind.Quantified (AstNode.mk qlen (Kind.Quantifier c)) b d')).length
            simp only [AstNode.length_mk]
            split <;> omega
          · intro s hs
            rcases List.mem_append.mp hs with h | h
            · exact hflsts s h
            · simp only [List.mem_singleton] at h
              subst h
              exact ⟨⟨opt_lt_some _ _ (by omega), houts.1⟩, by simp, by simp⟩
      case ExactQuantifier n =>
        obtain ⟨fl, hfl, hfllen, hfls1, hfls2, hflsts⟩ :=
          ast_to_frag_spec b index (some (index + b.length), none) none B hwb
            ⟨opt_lt_some _ _ (by omega), opt_lt_none B⟩ (by omega)
        refine ⟨⟨fl.states ++ [State.mk (Kind.ExactQuantifier n) (some index, outs.1) d'],
          fl.start, outs⟩, ?_, ?_, ?_, ?_, ?_⟩
        · simp [ast_to_frag, quantifier_to_frag, AstNode.kind_mk, AstNode.length_mk, hfl]
        · simp [hfllen, AstNode.length_mk]
        · show index ≤ fl.start
          omega
        · show fl.start < index + (AstNode.mk (b.length + 1)
            (Kind.Quantified (AstNode.mk qlen (Kind.ExactQuantifier n)) b d')).length
          simp only [AstNode.length_mk]
          omega
        · intro s hs
          rcases List.mem_append.mp hs with h | h
          · exact hflsts s h
          · simp only [List.mem_singleton] at h
            subst h
            exact ⟨⟨opt_lt_some _ _ (by omega), houts.1⟩, by simp, by simp⟩
      all_goals exact absurd hq (by simp [is_quantifier_ast])
  | .mk len Kind.AnchorStart => by
      intro index outs dist B hwf
      exact absurd hwf (by simp [wf_content, wf_content_kind])
  | .mk len Kind.Start => by
      intro index outs dist B hwf
      exact absurd hwf (by simp [wf_content, wf_content_kind])
  | .mk len Kind.Terminal => by
      intro index outs dist B hwf
      exact absurd hwf (by simp [wf_content, wf_content_kind])
  | .mk len Kind.Split => by
      intro index outs dist B hwf
      exact absurd hwf (by simp [wf_content, wf_content_kind])
  | .mk len (Kind.Quantifier c) => by
      intro index outs dist B hwf
      exact absurd hwf (by simp [wf_content, wf_content_kind])
  | .mk len (Kind.ExactQuantifier n) => by
      intro index outs dist B hwf
      exact absurd hwf (by simp [wf_content, wf_content_kind])
  termination_by sizeOf ast
  decreasing_by all_goals (simp_wf; omega)

theorem total_len_nil : total_len [] = 0 := rfl

theorem total_len_cons (a : AstNode) (l : List AstNode) :
    total_len (a :: l) = a.length + total_len l := by
  simp [total_len]

theorem eq_of_is_terminal_ast : ∀ a, is_terminal_ast a = true → a = AstNode.mk 0 Kind.Terminal := by
  intro a h
  obtain ⟨alen, ak⟩ := a
  cases ak <;> cases alen <;> first | rfl | exact Bool.noConfusion h

theorem asts_to_nfa_core_cons (ast : AstNode) (rest : List AstNode) (index : Nat)
    (start : Option Nat) :
    asts_to_nfa_core (ast :: rest) index start =
      (ast_to_frag ast index (some (index + ast.length), none) none).bind fun frag =>
        (asts_to_nfa_core rest (index + ast.length)
            (match start with | none => some frag.start | some s => some s)).bind fun pr =>
          some (frag.states ++ pr.1, pr.2) := by
  cases h : ast_to_frag ast index (some (index + ast.length), none) none <;>
    simp [asts_to_nfa_core, h]

theorem asts_to_nfa_core_spec : ∀ (asts : List AstNode) (index : Nat) (start : Option Nat),
    wf_body asts = true →
    ∃ sts st, asts_to_nfa_core asts index start = some (sts, st)
      ∧ sts.length = total_len asts + 1
      ∧ (∀ s ∈ sts, outs_lt s.outs (index + total_len asts + 1)
          ∧ s.kind ≠ Kind.Start ∧ s.kind ≠ Kind.AnchorStart)
      ∧ sts.getLast? = some State.terminal
      ∧ (∀ s0, start = some s0 → st = some s0)
      ∧ (start = none → ∃ v, st = some v ∧ index ≤ v ∧ v < index + total_len asts + 1) := by
  intro asts
  induction asts with
  | nil =>
      intro index start h
      exact absurd h (by simp [wf_body])
  | cons a rest ih =>
      intro index start h
      cases rest with
      | nil =>
          have ha : a = AstNode.mk 0 Kind.Terminal := eq_of_is_terminal_ast a h
          subst ha
          refine ⟨[State.terminal], (match start with | none => some index | some s => some s),
            ?_, ?_, ?_, ?_, ?_, ?_⟩
          · cases start <;> simp [asts_to_nfa_core, ast_to_frag]
          · simp [total_len_cons, total_len_nil, AstNode.length_mk]
          · intro s hs
            simp only [List.mem_singleton] at hs
            subst hs
            exact ⟨⟨opt_lt_none _, opt_lt_none _⟩, by simp [State.terminal], by simp [State.terminal]⟩
          · rfl
          · intro s0 hs0
            subst hs0
            rfl
          · intro hnone
            subst hnone
            exact ⟨index, rfl, le_refl index, by omega⟩
      | cons b t =>
          have h2 : wf_content a = true ∧ wf_body (b :: t) = true := by
            simpa [wf_body, Bool.and_eq_true] using h
          obtain ⟨hwa, hwrest⟩ := h2
          obtain ⟨f, hf, hflen, hfs1, hfs2, hfsts⟩ :=
            ast_to_frag_spec a index (some (index + a.length), none) none
              (index + total_len (a :: b :: t) + 1) hwa
              ⟨opt_lt_some _ _ (by simp [total_len_cons]; omega), opt_lt_none _⟩
              (by simp [total_len_cons]; omega)
          obtain ⟨sts', st, hcore, hlen', hsts', hlast', hsome', hnone'⟩ :=
            ih (index + a.length) (match start with | none => some f.start | some s => some s)
              hwrest
          have hBeq : index + a.length + total_len (b :: t) + 1
              = index + total_len (a :: b :: t) + 1 := by
            simp [total_len_cons]
            omega
          refine ⟨f.states ++ sts', st, ?_, ?_, ?_, ?_, ?_, ?_⟩
          · rw [asts_to_nfa_core_cons, hf]
            simp only [Option.some_bind]
            rw [hcore]
            rfl
          · simp [hflen, hlen', total_len_cons]
            omega
          · intro s hs
            rcases List.mem_append.mp hs with hm | hm
            · exact hfsts s hm
            · have := hsts' s hm
              rw [hBeq] at this
              exact this
          · have hne : sts' ≠ [] := by
              intro hnil
              rw [hnil] at hlen'
              simp at hlen'
            rw [List.getLast?_append_of_ne_nil _ hne]
            exact hlast'
          · intro s0 hs0
            subst hs0
            exact hsome' s0 rfl
          · intro hnone
            subst hnone
            have hstf := hsome' f.start rfl
            refine ⟨f.start, hstf, by omega, ?_⟩
            simp only [total_len_cons]
            omega

theorem eq_of_is_anchor_start_ast : ∀ a, is_anchor_start_ast a = true →
    a = AstNode.mk 0 Kind.AnchorStart := by
  intro a h
  obtain ⟨alen, ak⟩ := a
  cases ak <;> cases alen <;> first | rfl | exact Bool.noConfusion h

theorem asts_to_nfa_eq (asts : List AstNode) :
    asts_to_nfa asts = (asts_to_nfa_core asts 1 none).bind fun pr =>
      some ((match pr.1.head? with
        | some s =>
            (match s.kind with
              | Kind.Start => []
              | Kind.AnchorStart => []
              | _ => [State.start pr.2])
        | none => [State.start pr.2]) ++ pr.1) := by
  cases h : asts_to_nfa_core asts 1 none <;> simp [asts_to_nfa, h]

/-- Claim C6: for every AST list of the shape produced by `parse`
(optional leading `AnchorStart`, then well-formed content nodes, then a
final `Terminal`), the state list returned by `asts_to_nfa` starts with
a `Start` or `AnchorStart`, ends with a `Terminal`, and every `some`
target in any state's outs is a valid in-range index. -/
theorem c6_nfa_invariants (asts : List AstNode) (h : wf_parse asts = true) :
    ∃ nfa, asts_to_nfa asts = some nfa
      ∧ 0 < nfa.length
      ∧ (∀ s, nfa.head? = some s → s.kind = Kind.Start ∨ s.kind = Kind.AnchorStart)
      ∧ (∀ s, nfa.getLast? = some s → s.kind = Kind.Terminal)
      ∧ (∀ s ∈ nfa, ∀ t, (s.outs.1 = some t ∨ s.outs.2 = some t) → t < nfa.length) := by
  cases asts with
  | nil => exact absurd h (by simp [wf_parse])
  | cons a rest =>
      by_cases hA : is_anchor_start_ast a = true
      · -- leading AnchorStart
        obtain rfl := eq_of_is_anchor_start_ast a hA
        have hbody : wf_body rest = true := by
          simpa [wf_parse, hA] using h
        obtain ⟨sts', st, hcore, hlen', hsts', hlast', hsome', hnone'⟩ :=
          asts_to_nfa_core_spec rest 1 (some 1) hbody
        have hstv : st = some 1 := hsome' 1 rfl
        subst hstv
        have hfraga : ast_to_frag (AstNode.mk 0 Kind.AnchorStart) 1
            (some (1 + (AstNode.mk 0 Kind.AnchorStart).length), none) none
            = some ⟨[State.mk Kind.AnchorStart (some 1, none) none], 1, (some 1, none)⟩ := by
          simp [ast_to_frag, AstNode.length_mk]
        have hcoreall : asts_to_nfa_core (AstNode.mk 0 Kind.AnchorStart :: rest) 1 none
            = some (State.mk Kind.AnchorStart (some 1, none) none :: sts', some 1) := by
          rw [asts_to_nfa_core_cons, hfraga]
          simp only [Option.some_bind]
          rw [show (1 + (AstNode.mk 0 Kind.AnchorStart).length) = 1 from rfl]
          rw [hcore]
          rfl
        refine ⟨State.mk Kind.AnchorStart (some 1, none) none :: sts', ?_, ?_, ?_, ?_, ?_⟩
        · rw [asts_to_nfa_eq, hcoreall]
          rfl
        · simp
        · intro s hs
          simp only [List.head?_cons, Option.some.injEq] at hs
          subst hs
          right
          rfl
        · intro s hs
          have hne : sts' ≠ [] := by
            intro hnil
            rw [hnil] at hlen'
            simp at hlen'
          rw [show (State.mk Kind.AnchorStart (some 1, none) none :: sts')
              = [State.mk Kind.AnchorStart (some 1, none) none] ++ sts' from rfl,
            List.getLast?_append_of_ne_nil _ hne, hlast'] at hs
          obtain rfl := Option.some.inj hs
          rfl
        · intro s hs t ht
          have hL : (State.mk Kind.AnchorStart (some 1, none) none :: sts').length
              = total_len rest + 2 := by
            simp [hlen']
          rw [hL]
          rcases List.mem_cons.mp hs with hm | hm
          · subst hm
            rcases ht with ht | ht
            · obtain rfl := Option.some.inj ht.symm
              omega
            · exact absurd ht (by simp)
          · have hb := (hsts' s hm).1
            rcases ht with ht | ht
            · have := hb.1 t ht
              omega
            · have := hb.2 t ht
              omega
      · -- no leading AnchorStart: a Start state is prepended
        have hbody : wf_body (a :: rest) = true := by
          simpa [wf_parse, hA] using h
        obtain ⟨sts, st, hcore, hlen, hsts, hlast, hsome, hnone⟩ :=
          asts_to_nfa_core_spec (a :: rest) 1 none hbody
        obtain ⟨v, hstv, hv1, hv2⟩ := hnone rfl
        subst hstv
        have hne : sts ≠ [] := by
          intro hnil
          rw [hnil] at hlen
          simp at hlen
        obtain ⟨s0, rest0, rfl⟩ := List.exists_cons_of_ne_nil hne
        have hk0 := hsts s0 (List.mem_cons_self s0 rest0)
        refine ⟨State.start (some v) :: s0 :: rest0, ?_, ?_, ?_, ?_, ?_⟩
        · rw [asts_to_nfa_eq, hcore]
          simp only [Option.some_bind, List.head?_cons]
          obtain ⟨k0, o0, d0⟩ := s0
          cases k0 <;>
            first
              | rfl
              | exact absurd rfl hk0.2.1
              | exact absurd rfl hk0.2.2
        · simp
        · intro s hs
          simp only [List.head?_cons, Option.some.injEq] at hs
          subst hs
          left
          rfl
        · intro s hs
          rw [show (State.start (some v) :: s0 :: rest0)
              = [State.start (some v)] ++ (s0 :: rest0) from rfl,
            List.getLast?_append_of_ne_nil _ (by simp), hlast] at hs
          obtain rfl := Option.some.inj hs
          rfl
        · intro s hs t ht
          have hL : (State.start (some v) :: s0 :: rest0).length
              = total_len (a :: rest) + 2 := by
            have : (s0 :: rest0).length = total_len (a :: rest) + 1 := hlen
            simp at this ⊢
            omega
          rw [hL]
          rcases List.mem_cons.mp hs with hm | hm
          · subst hm
            rcases ht with ht | ht
            · obtain rfl := Option.some.inj ht.symm
              omega
            · exact absurd ht (by simp [State.start])
          · have hb := (hsts s hm).1
            rcases ht with ht | ht
            · have := hb.1 t ht
              omega
            · have := hb.2 t ht
              omega

/-- Witness for C6 at the AST list of `a?b`. -/
theorem c6_nfa_invariants_witness :
    wf_parse [AstNode.mk 3 (Kind.Concatenation
        (AstNode.mk 2 (Kind.Quantified (AstNode.mk 1 (Kind.Quantifier '?'))
          (AstNode.mk 1 (Kind.Literal 'a')) none))
        (AstNode.mk 1 (Kind.Literal 'b'))), AstNode.mk 0 Kind.Terminal] = true
    ∧ (∃ nfa, asts_to_nfa [AstNode.mk 3 (Kind.Concatenation
          (AstNode.mk 2 (Kind.Quantified (AstNode.mk 1 (Kind.Quantifier '?'))
            (AstNode.mk 1 (Kind.Literal 'a')) none))
          (AstNode.mk 1 (Kind.Literal 'b'))), AstNode.mk 0 Kind.Terminal] = some nfa
        ∧ 0 < nfa.length
        ∧ (∀ s, nfa.head? = some s → s.kind = Kind.Start ∨ s.kind = Kind.AnchorStart)
        ∧ (∀ s, nfa.getLast? = some s → s.kind = Kind.Terminal)
        ∧ (∀ s ∈ nfa, ∀ t, (s.outs.1 = some t ∨ s.outs.2 = some t) → t < nfa.length)) :=
  ⟨rfl, c6_nfa_invariants [AstNode.mk 3 (Kind.Concatenation
      (AstNode.mk 2 (Kind.Quantified (AstNode.mk 1 (Kind.Quantifier '?'))
        (AstNode.mk 1 (Kind.Literal 'a')) none))
      (AstNode.mk 1 (Kind.Literal 'b'))), AstNode.mk 0 Kind.Terminal] rfl⟩

end Pregex
